import Mathlib

/-! Error correction of reads by trie consensus (`src/Algorithm/ErrorCorrect.cpp`).

A shallow embedding of `ErrorCorrect::trieCorrect` and `ErrorCorrect::correctVertex`.

* `std::string` is a list of characters (`Str`); `operator[]` is the partial
  lookup `l[i]?`, so that an access outside the container makes the whole
  call return `none`.
* `double` is `Dbl`: not-a-number, the two infinities, and the finite values
  (rationals; every finite double is one).  The comparisons are the IEEE ones:
  every comparison with a not-a-number is false.
* The floating-point arithmetic used by the merge (`1 - x`, `log`, `+`) and the
  trie methods (`remodel`, `score`, `PathScore::reverse`) are library or
  collaborator code that is not part of `ErrorCorrect.cpp`; they are the fields
  of an environment `Env` over which every definition is parameterised.
-/

set_option autoImplicit false

namespace ErrorCorrect

/-! ## Doubles -/

/-- An IEEE-754 double, up to the order structure: a not-a-number, minus
infinity, a finite value, plus infinity. -/
inductive Dbl where
  | nan : Dbl
  | negInf : Dbl
  | fin (q : ℚ) : Dbl
  | posInf : Dbl
  deriving DecidableEq

/-- The IEEE comparison `a < b` (false as soon as one side is not a number). -/
def Dbl.lt : Dbl → Dbl → Prop
  | .nan, _ => False
  | _, .nan => False
  | .negInf, .negInf => False
  | .negInf, _ => True
  | .fin _, .negInf => False
  | .fin a, .fin b => a < b
  | .fin _, .posInf => True
  | .posInf, _ => False

/-- The IEEE comparison `a ≤ b` (false as soon as one side is not a number). -/
def Dbl.le : Dbl → Dbl → Prop
  | .nan, _ => False
  | _, .nan => False
  | .negInf, _ => True
  | .fin _, .negInf => False
  | .fin a, .fin b => a ≤ b
  | .fin _, .posInf => True
  | .posInf, .posInf => True
  | .posInf, _ => False

instance : LT Dbl := ⟨Dbl.lt⟩

instance : LE Dbl := ⟨Dbl.le⟩

instance Dbl.decLt (a b : Dbl) : Decidable (a < b) := by
  cases a <;> cases b <;> simp only [LT.lt, Dbl.lt] <;> infer_instance

instance Dbl.decLe (a b : Dbl) : Decidable (a ≤ b) := by
  cases a <;> cases b <;> simp only [LE.le, Dbl.le] <;> infer_instance

/-- The largest finite double, `std::numeric_limits<double>::max()`, which is
`2^1024 - 2^971`. -/
def DBL_MAX : ℚ := 179769313486231570814527423731704356798070567525844996598917476803157260780028538760589558632766878171540458953514382464234321326889464182768467546703537516986049910576551282076245490090389328944075868508455133942304583236903222948165808559332123348274797826204144723168738177180919299881250404026184124858368

/-- The initial value of `leftBestScore` and `rightBestScore`:
`-std::numeric_limits<double>::max()`. -/
def sentinel : Dbl := .fin (-DBL_MAX)

/-- The local `double cutoff = -40;` of `trieCorrect`. -/
def cutoff : Dbl := .fin (-40)

/-! ## Data -/

/-- A `std::string`. -/
abbrev Str := List Char

/-- The fields of `PathScore` that `trieCorrect` reads. -/
structure PathScore where
  path_corrected : Str
  path_score : Dbl
  probVector : List Dbl
  deriving DecidableEq

/-- A `PathScoreVector`. -/
abbrev PathScoreVector := List PathScore

/-- The floating-point primitives that `trieCorrect` uses: the double
subtraction, the double addition and the C library logarithm. -/
structure FloatOps where
  sub : Dbl → Dbl → Dbl
  add : Dbl → Dbl → Dbl
  log : Dbl → Dbl

/-- Code that `trieCorrect` calls and that lives outside `ErrorCorrect.cpp`: the
floating-point primitives, the two `SeqTrie` methods over a trie type `T`, and
`PathScore::reverse`. -/
structure Env (T : Type) extends FloatOps where
  remodel : Nat → Dbl → T → T
  score : Str → Dbl → T → PathScoreVector
  reverse : PathScore → PathScore

/-! ## `trieCorrect` -/

/-- The selection loops (lines 58-72 and 78-95) from iteration `i` on:
`psv` holds the elements not yet visited, `bestIdx` and `bestScore` are the
two loop variables.  The unused `getDiffString` result is not modelled. -/
def selectBestFrom : Nat → PathScoreVector → Nat → Dbl → Nat × Dbl
  | _, [], bestIdx, bestScore => (bestIdx, bestScore)
  | i, p :: rest, bestIdx, bestScore =>
    if bestScore < p.path_score then selectBestFrom (i + 1) rest i p.path_score
    else selectBestFrom (i + 1) rest bestIdx bestScore

/-- A whole selection loop, from `bestIdx = 0` and
`bestScore = -std::numeric_limits<double>::max()`. -/
def selectBest (psv : PathScoreVector) : Nat × Dbl :=
  selectBestFrom 0 psv 0 sentinel

/-- The value `log(1 - p.path_score) + p.probVector[i]` of lines 131-132, for
the element `x` of the probability vector. -/
def combined {T : Type} (env : Env T) (p : PathScore) (x : Dbl) : Dbl :=
  env.add (env.log (env.sub (.fin 1) p.path_score)) x

/-- One iteration of the merge loop (lines 125-138): the character pushed at
position `i`, or `none` when an access is out of range. -/
def mergeChar {T : Type} (env : Env T) (left right : PathScore) (i : Nat) : Option Char :=
  match left.path_corrected[i]?, right.path_corrected[i]? with
  | some lc, some rc =>
    if lc = rc then some lc
    else
      match left.probVector[i]?, right.probVector[i]? with
      | some lp, some rp =>
        if combined env left lp < combined env right rp then some lc else some rc
      | _, _ => none
  | _, _ => none

/-- The merge loop (lines 123-139): the value of `consensus` after the first
`n` iterations. -/
def mergeLoop {T : Type} (env : Env T) (left right : PathScore) : Nat → Option Str
  | 0 => some []
  | n + 1 =>
    match mergeLoop env left right n, mergeChar env left right n with
    | some acc, some c => some (acc ++ [c])
    | _, _ => none

/-- Lines 49-141 of `trieCorrect`: from the two path-score vectors (the right
one after the `reverse()` calls of line 80) to the consensus. -/
def consensusOf {T : Type} (env : Env T) (original : Str)
    (left_psv right_psv : PathScoreVector) : Option Str :=
  let leftBest := selectBest left_psv
  let rightBest := selectBest right_psv
  if (left_psv = [] ∧ right_psv = []) ∨ (leftBest.2 < cutoff ∧ rightBest.2 < cutoff) then
    some original
  else if left_psv = [] ∨ leftBest.2 < cutoff then
    (right_psv[rightBest.1]?).map PathScore.path_corrected
  else if right_psv = [] ∨ rightBest.2 < cutoff then
    (left_psv[leftBest.1]?).map PathScore.path_corrected
  else
    match left_psv[leftBest.1]?, right_psv[rightBest.1]? with
    | some left, some right => mergeLoop env left right original.length
    | _, _ => none

/-- The vector `left_psv` as the selection loop sees it (lines 40 and 46). -/
def left_psv {T : Type} (env : Env T) (original : Str) (p_error : Dbl) (leftTrie : T) :
    PathScoreVector :=
  env.score original p_error (env.remodel 2 (env.log p_error) leftTrie)

/-- The vector `right_psv` once line 80 has reversed each element in place
(lines 41, 47 and 80). -/
def right_psv {T : Type} (env : Env T) (original : Str) (p_error : Dbl) (rightTrie : T) :
    PathScoreVector :=
  (env.score original.reverse p_error (env.remodel 2 (env.log p_error) rightTrie)).map env.reverse

/-- The function `ErrorCorrect::trieCorrect`. -/
def trieCorrect {T : Type} (env : Env T) (original : Str) (p_error : Dbl)
    (leftTrie rightTrie : T) : Option Str :=
  consensusOf env original (left_psv env original p_error leftTrie)
    (right_psv env original p_error rightTrie)

/-! ## `correctVertex` -/

/-- The collaborators of `correctVertex` that live outside `ErrorCorrect.cpp`,
over a graph type `G`, a vertex type `V`, a multi-overlap type `MO` and a trie
type `T`: `SGAlgorithms::makeExtendedMultiOverlap`, `MultiOverlap::isConflicted`,
`SGAlgorithms::makeExtendedSeqTries` (its two out-parameters as a pair),
`pVertex->getSeq().toString()` and
`MultiOverlap::calculateConsensusFromPartition`. -/
structure GraphOps (G V MO T : Type) where
  makeExtendedMultiOverlap : G → V → MO
  isConflicted : MO → Nat → Bool
  makeExtendedSeqTries : G → V → Dbl → T × T
  getSeq : V → Str
  calculateConsensusFromPartition : MO → Dbl → Str

/-- The function `ErrorCorrect::correctVertex`. -/
def correctVertex {G V MO T : Type} (env : Env T) (ops : GraphOps G V MO T)
    (pGraph : G) (pVertex : V) (simpleCutoff : Nat) (p_error : Dbl) : Option Str :=
  let mo := ops.makeExtendedMultiOverlap pGraph pVertex
  if ops.isConflicted mo simpleCutoff then
    let tries := ops.makeExtendedSeqTries pGraph pVertex p_error
    trieCorrect env (ops.getSeq pVertex) p_error tries.1 tries.2
  else
    some (ops.calculateConsensusFromPartition mo p_error)

/-! ## The collaborators, as far as the specification describes them -/

/-- Modelled from the spec: `PathScore::reverse`, defined with `PathScore` outside
`ErrorCorrect.cpp`: "reverse the right-side path's sequence and probability
vector back to original orientation". -/
def PathScore.reverse (p : PathScore) : PathScore :=
  { p with path_corrected := p.path_corrected.reverse, probVector := p.probVector.reverse }

/-- Modelled from the spec: a graph vertex, "one read; holds its sequence", known
by a stable integer identifier (the `Vertex` class is not in the sources). -/
structure Vertex where
  id : Nat
  seq : Str
  deriving DecidableEq

/-- Modelled from the spec: an overlap edge, a "(source-id, target-id, metadata)"
tuple stored once per direction; the metadata kept here is the column of the
source's coordinate frame at which the target's first base sits. -/
structure Edge where
  source : Nat
  target : Nat
  offset : Int
  deriving DecidableEq

/-- Modelled from the spec: the string graph, "an arena of vertices indexed by
stable integer identifiers" together with its edges (the `StringGraph` class is
not in the sources). -/
structure StringGraph where
  vertices : List Vertex
  edges : List Edge

/-- Modelled from the spec: the multi-overlap of a vertex, "the set of neighbor
reads with their alignment offsets relative to that vertex's sequence" (the
`MultiOverlap` class is not in the sources). -/
structure MultiOverlap where
  rootSeq : Str
  overlaps : List (Str × Int)

/-- Modelled from the spec: the graph collaborator's "vertex lookup by read
identifier". -/
def StringGraph.getVertex (g : StringGraph) (id : Nat) : Option Vertex :=
  g.vertices.find? (fun w => w.id = id)

/-- Modelled from the spec: the graph collaborator's "incident-edge enumeration",
each incident edge giving the neighbour's sequence and its alignment offset. -/
def StringGraph.neighbours (g : StringGraph) (v : Vertex) : List (Str × Int) :=
  g.edges.filterMap (fun e =>
    if e.source = v.id then (g.getVertex e.target).map (fun w => (w.seq, e.offset)) else none)

/-- Modelled from the spec: `SGAlgorithms::makeExtendedMultiOverlap`, which
"aggregates all neighbor overlaps" of the vertex (in the words of the source,
"a multioverlap containing all the reads that have an overlap to this
vertex"). -/
def makeExtendedMultiOverlap (g : StringGraph) (v : Vertex) : MultiOverlap :=
  { rootSeq := v.seq, overlaps := g.neighbours v }

/-- Modelled from the spec: the numeric side of the error model and the cut of a
neighbour read into extensions, which the specification names without giving
formulas: `weigh p k n` is the weight of a base seen `k` times in a column of
`n` reads under error rate `p`; `branchLogProb k n` is the estimated log
probability of a trie edge observed `k` times among `n` sibling observations;
`stepLogProb p m k n` is the log probability of following such an edge when it
agrees (`m`) or not with the scored read; `leftExt` and `rightExt` give the
extension of the vertex sequence that a neighbour contributes to each trie. -/
structure ErrorModel where
  weigh : Dbl → Nat → Nat → Dbl
  branchLogProb : Nat → Nat → Dbl
  stepLogProb : Dbl → Bool → Nat → Nat → Dbl
  leftExt : Str → Str × Int → Option Str
  rightExt : Str → Str × Int → Option Str

/-- Modelled from the spec: the bases of a column of the multi-overlap, the
neighbours' bases aligned to column `i` of the vertex sequence's coordinate
frame. -/
def MultiOverlap.column (mo : MultiOverlap) (i : Nat) : List Char :=
  mo.overlaps.filterMap (fun o =>
    if o.2 ≤ (i : Int) then o.1[((i : Int) - o.2).toNat]? else none)

/-- Modelled from the spec: the "per-column majority vote weighted by the error
model": the vertex's own base stands unless a neighbour's base outweighs it. -/
def columnVote (m : ErrorModel) (p_error : Dbl) (root : Char) (others : List Char) : Char :=
  let pile := root :: others
  others.foldl (fun best b =>
    if m.weigh p_error (pile.count best) pile.length < m.weigh p_error (pile.count b) pile.length
    then b else best) root

/-- Modelled from the spec: `MultiOverlap::calculateConsensusFromPartition`, which
"produces a corrected sequence by per-column majority vote weighted by the
error model". -/
def MultiOverlap.calculateConsensusFromPartition (m : ErrorModel) (mo : MultiOverlap)
    (p_error : Dbl) : Str :=
  mo.rootSeq.enum.map (fun ir => columnVote m p_error ir.2 (mo.column ir.1))

/-- Modelled from the spec: the sequence trie, "a prefix tree" in which "each edge
carries an observation count" (the `SeqTrie` class is not in the sources). An
edge is its label, its count and the subtree below it. -/
inductive SeqTrie where
  | node (links : List (Char × Nat × SeqTrie)) : SeqTrie

/-- Modelled from the spec: adding one observation of the edge labelled `c`
among the edges of a node, the rest of the string going into `sub`. -/
def SeqTrie.insertLink (c : Char) (sub : SeqTrie → SeqTrie) :
    List (Char × Nat × SeqTrie) → List (Char × Nat × SeqTrie)
  | [] => [(c, 1, sub (.node []))]
  | l :: ls => if l.1 = c then (l.1, l.2.1 + 1, sub l.2.2) :: ls else l :: SeqTrie.insertLink c sub ls

/-- Modelled from the spec: insertion of one extension into the prefix tree. -/
def SeqTrie.insert : Str → SeqTrie → SeqTrie
  | [], t => t
  | c :: cs, .node links => .node (SeqTrie.insertLink c (SeqTrie.insert cs) links)

/-- Modelled from the spec: `SGAlgorithms::makeExtendedSeqTries`, "build
left-extension and right-extension tries from all neighbor reads overlapping
the vertex". -/
def makeExtendedSeqTries (m : ErrorModel) (g : StringGraph) (v : Vertex) (_p_error : Dbl) :
    SeqTrie × SeqTrie :=
  (((g.neighbours v).filterMap (m.leftExt v.seq)).foldl (fun t s => t.insert s) (.node []),
   ((g.neighbours v).filterMap (m.rightExt v.seq)).foldl (fun t s => t.insert s) (.node []))

/-- Modelled from the spec: adding `mass` to the first edge that has count `top`
(the "dominant sibling" when `top` is the largest count). -/
def SeqTrie.bump (top mass : Nat) :
    List (Char × Nat × SeqTrie) → List (Char × Nat × SeqTrie)
  | [] => []
  | l :: ls => if l.2.1 = top then (l.1, l.2.1 + mass, l.2.2) :: ls else l :: SeqTrie.bump top mass ls

/-- Modelled from the spec: remodelling the edges of one node: the edges "whose
estimated probability falls below a floor" are collapsed, "merging their mass
into the dominant sibling". An edge of the largest count is never collapsed. -/
def SeqTrie.collapse (m : ErrorModel) (floor : Dbl) (links : List (Char × Nat × SeqTrie)) :
    List (Char × Nat × SeqTrie) :=
  let total := (links.map (fun l => l.2.1)).sum
  let top := (links.map (fun l => l.2.1)).foldl max 0
  let weak := links.filter (fun l => l.2.1 < top ∧ m.branchLogProb l.2.1 total < floor)
  let kept := links.filter (fun l => ¬ (l.2.1 < top ∧ m.branchLogProb l.2.1 total < floor))
  SeqTrie.bump top ((weak.map (fun l => l.2.1)).sum) kept

/-- Modelled from the spec: `SeqTrie::remodel` below a node at depth `depth`:
the collapse is applied to the edges "at branch depth ≥" `minDepth`. -/
def SeqTrie.remodelAt (m : ErrorModel) (minDepth : Nat) (floor : Dbl) : Nat → SeqTrie → SeqTrie
  | depth, .node links =>
    let below := links.attach.map (fun l =>
      (l.1.1, l.1.2.1, SeqTrie.remodelAt m minDepth floor (depth + 1) l.1.2.2))
    .node (if minDepth ≤ depth + 1 then SeqTrie.collapse m floor below else below)
termination_by _ t => sizeOf t
decreasing_by
  simp_wf
  have h := List.sizeOf_lt_of_mem l.2
  have h2 : sizeOf l.1.2.2 < sizeOf l.1 := by
    rcases l with ⟨⟨c, n, t⟩, hl⟩
    simp
    omega
  omega

/-- Modelled from the spec: `SeqTrie::remodel`, called on the root. -/
def SeqTrie.remodel (m : ErrorModel) (minDepth : Nat) (floor : Dbl) (t : SeqTrie) : SeqTrie :=
  SeqTrie.remodelAt m minDepth floor 0 t

/-- Modelled from the spec: the walk of `SeqTrie::score`, "walking a trie guided
by the original read": `s` is what remains of the read and `acc` the path
followed so far, with its "per-position log-probability vector" and its
"aggregate path score". -/
def SeqTrie.walk (f : FloatOps) (m : ErrorModel) (p_error : Dbl) :
    Str → SeqTrie → PathScore → PathScoreVector
  | [], _, acc => [acc]
  | c :: cs, .node links, acc =>
    let total := (links.map (fun l => l.2.1)).sum
    links.flatMap (fun l =>
      let lp := m.stepLogProb p_error (decide (l.1 = c)) l.2.1 total
      SeqTrie.walk f m p_error cs l.2.2
        { path_corrected := acc.path_corrected ++ [l.1],
          path_score := f.add acc.path_score lp,
          probVector := acc.probVector ++ [lp] })

/-- Modelled from the spec: `SeqTrie::score`, producing "a set of path scores
(candidate corrected sequences with per-position log-probabilities and an
aggregate path log-likelihood)". -/
def SeqTrie.score (f : FloatOps) (m : ErrorModel) (s : Str) (p_error : Dbl) (t : SeqTrie) :
    PathScoreVector :=
  SeqTrie.walk f m p_error s t { path_corrected := [], path_score := .fin 0, probVector := [] }

/-- Modelled from the spec: the environment of `trieCorrect` made of the trie
operations above. -/
def specEnv (f : FloatOps) (m : ErrorModel) : Env SeqTrie :=
  { f with
    remodel := SeqTrie.remodel m
    score := SeqTrie.score f m
    reverse := PathScore.reverse }

/-- Modelled from the spec: the collaborators of `correctVertex` made of the
graph operations above; the conflict test `MultiOverlap::isConflicted` is left
open. -/
def specOps (m : ErrorModel) (isConflicted : MultiOverlap → Nat → Bool) :
    GraphOps StringGraph Vertex MultiOverlap SeqTrie :=
  { makeExtendedMultiOverlap := makeExtendedMultiOverlap
    isConflicted := isConflicted
    makeExtendedSeqTries := makeExtendedSeqTries m
    getSeq := Vertex.seq
    calculateConsensusFromPartition := MultiOverlap.calculateConsensusFromPartition m }

/-! ## The branch conditions of `trieCorrect` and an environment for worked examples -/

/-- A side is usable: its vector is "non-empty with best path score ≥ -40". -/
def usable (psv : PathScoreVector) : Prop :=
  psv ≠ [] ∧ cutoff ≤ (selectBest psv).2

/-- A side is not usable: its vector is "empty or has best path score < -40"
(the tests of lines 102 and 106). -/
def unusable (psv : PathScoreVector) : Prop :=
  psv = [] ∨ (selectBest psv).2 < cutoff

/-- The value `m` is the greatest path score of the vector: some path has it and
no path has a greater one. -/
def isMaxScore (psv : PathScoreVector) (m : Dbl) : Prop :=
  (∃ p ∈ psv, p.path_score = m) ∧ ∀ p ∈ psv, p.path_score ≤ m

/-- Every path of the vector can be read at each position of `original`. -/
def covers (original : Str) (psv : PathScoreVector) : Prop :=
  ∀ q ∈ psv, original.length ≤ q.path_corrected.length ∧ original.length ≤ q.probVector.length

instance usable.dec (psv : PathScoreVector) : Decidable (usable psv) :=
  inferInstanceAs (Decidable (_ ∧ _))

instance unusable.dec (psv : PathScoreVector) : Decidable (unusable psv) :=
  inferInstanceAs (Decidable (_ ∨ _))

instance covers.dec (original : Str) (psv : PathScoreVector) : Decidable (covers original psv) :=
  inferInstanceAs (Decidable (∀ q ∈ psv, _))

/-- Double addition on the values where it is exact (used by the
worked examples only): the sum of two finite values is taken in the rationals. -/
def exactAdd : Dbl → Dbl → Dbl
  | .fin a, .fin b => .fin (a + b)
  | .nan, _ => .nan
  | _, .nan => .nan
  | .posInf, .negInf => .nan
  | .negInf, .posInf => .nan
  | .posInf, _ => .posInf
  | _, .posInf => .posInf
  | .negInf, _ => .negInf
  | _, .negInf => .negInf

/-- Double subtraction on the values where it is exact (used by the
worked examples only). -/
def exactSub : Dbl → Dbl → Dbl
  | .fin a, .fin b => .fin (a - b)
  | .nan, _ => .nan
  | _, .nan => .nan
  | .posInf, .posInf => .nan
  | .negInf, .negInf => .nan
  | .posInf, _ => .posInf
  | _, .negInf => .posInf
  | .negInf, _ => .negInf
  | _, .posInf => .negInf

/-- The logarithm at the arguments where its value is exact (used by the
worked examples only, which take it at `1`): `log 1 = 0`, `log 0 = -inf`,
`log +inf = +inf`; a negative argument gives a not-a-number, and so does, in
this table, every argument whose logarithm is not a double. -/
def tableLog : Dbl → Dbl
  | .fin q => if q = 1 then .fin 0 else if q = 0 then .negInf else .nan
  | .posInf => .posInf
  | _ => .nan

/-- The arithmetic of the worked examples. -/
def tableOps : FloatOps :=
  { sub := exactSub, add := exactAdd, log := tableLog }

/-- An environment for worked examples, in which a trie is given by the
path-score vector it scores to and remodelling changes nothing. -/
def tableEnv : Env PathScoreVector :=
  { tableOps with
    remodel := fun _ _ t => t
    score := fun _ _ t => t
    reverse := PathScore.reverse }

/-- The error rate of the worked examples, `2^-6`. -/
def egErrorRate : Dbl := .fin (1 / 64)

/-- The original sequence of the merge examples. -/
def egOriginal : Str := "ACGT".toList

/-- The path ACGT, of score 0 (so that `log(1 - 0) = 0`) and of per-position
values -5, -1, -1, -1. -/
def egLeftBest : PathScore :=
  ⟨"ACGT".toList, .fin 0, [.fin (-5), .fin (-1), .fin (-1), .fin (-1)]⟩

/-- A left trie scoring to the single path `egLeftBest`. -/
def egLeft : PathScoreVector := [egLeftBest]

/-- The path TGCG in reverse orientation, of score 0 and of per-position values
-1, -1, -1, -50. -/
def egRightRaw : PathScore :=
  ⟨"TGCG".toList, .fin 0, [.fin (-1), .fin (-1), .fin (-1), .fin (-50)]⟩

/-- The path `egRightRaw` put back in the original orientation: GCGT with
per-position values -50, -1, -1, -1. -/
def egRightBest : PathScore :=
  ⟨"GCGT".toList, .fin 0, [.fin (-50), .fin (-1), .fin (-1), .fin (-1)]⟩

/-- A right trie scoring to the single path `egRightRaw`. -/
def egRight : PathScoreVector := [egRightRaw]

/-- An error model for the worked examples: a base weighs the number of reads
that show it, and the log probabilities are 0 for an agreement and -1
otherwise; a neighbour starting left of the vertex feeds the left trie, any
other neighbour the right trie. -/
def egModel : ErrorModel :=
  { weigh := fun _ k _ => .fin k
    branchLogProb := fun _ _ => .fin 0
    stepLogProb := fun _ agree _ _ => if agree then .fin 0 else .fin (-1)
    leftExt := fun _ o => if o.2 < 0 then some o.1.reverse else none
    rightExt := fun _ o => if o.2 < 0 then none else some o.1 }

/-- A graph for the worked examples: the reads 1 and 2 overlap each other, the
read 0 overlaps nothing. -/
def egGraph : StringGraph :=
  { vertices := [⟨0, "ACGT".toList⟩, ⟨1, "CGTA".toList⟩, ⟨2, "GTAC".toList⟩]
    edges := [⟨1, 2, 1⟩, ⟨2, 1, -1⟩] }

/-! ## Order facts on doubles -/

theorem Dbl.lt_def (a b : Dbl) : (a < b) = Dbl.lt a b := rfl

theorem Dbl.le_def (a b : Dbl) : (a ≤ b) = Dbl.le a b := rfl

theorem Dbl.ne_nan_of_lt_left {a b : Dbl} (h : a < b) : a ≠ .nan := by
  cases a <;> cases b <;> simp_all [Dbl.lt_def, Dbl.lt]

theorem Dbl.ne_nan_of_lt_right {a b : Dbl} (h : a < b) : b ≠ .nan := by
  cases a <;> cases b <;> simp_all [Dbl.lt_def, Dbl.lt]

theorem Dbl.trans_lt {a b c : Dbl} (h₁ : a < b) (h₂ : b < c) : a < c := by
  cases a <;> cases b <;> cases c <;> simp_all [Dbl.lt_def, Dbl.lt]
  exact h₁.trans h₂

theorem Dbl.le_of_lt {a b : Dbl} (h : a < b) : a ≤ b := by
  cases a <;> cases b <;> simp_all [Dbl.lt_def, Dbl.lt, Dbl.le_def, Dbl.le]
  exact h.le

theorem Dbl.le_self {a : Dbl} (h : a ≠ .nan) : a ≤ a := by
  cases a <;> simp_all [Dbl.le_def, Dbl.le]

theorem Dbl.le_of_not_lt {a b : Dbl} (ha : a ≠ .nan) (hb : b ≠ .nan) (h : ¬ a < b) : b ≤ a := by
  cases a <;> cases b <;> simp_all [Dbl.lt_def, Dbl.lt, Dbl.le_def, Dbl.le]

theorem Dbl.not_lt_of_le {a b : Dbl} (h : b ≤ a) : ¬ a < b := by
  cases a <;> cases b <;> simp_all [Dbl.lt_def, Dbl.lt, Dbl.le_def, Dbl.le]

theorem Dbl.lt_of_le_of_lt {a b c : Dbl} (h₁ : a ≤ b) (h₂ : b < c) : a < c := by
  cases a <;> cases b <;> cases c <;> simp_all [Dbl.lt_def, Dbl.lt, Dbl.le_def, Dbl.le]
  exact h₁.trans_lt h₂

theorem Dbl.lt_of_lt_of_le {a b c : Dbl} (h₁ : a < b) (h₂ : b ≤ c) : a < c := by
  cases a <;> cases b <;> cases c <;> simp_all [Dbl.lt_def, Dbl.lt, Dbl.le_def, Dbl.le]
  exact h₁.trans_le h₂

theorem sentinel_lt_cutoff : sentinel < cutoff := by
  simp only [sentinel, cutoff, DBL_MAX, Dbl.lt_def, Dbl.lt]
  norm_num

/-! ## The selection loop -/

theorem selectBestFrom_ne_nan (l : PathScoreVector) (i bi : Nat) (bs : Dbl) (h : bs ≠ .nan) :
    (selectBestFrom i l bi bs).2 ≠ .nan := by
  induction l generalizing i bi bs with
  | nil => simpa [selectBestFrom] using h
  | cons p rest ih =>
    unfold selectBestFrom
    split
    · next hlt => exact ih _ _ _ (Dbl.ne_nan_of_lt_right hlt)
    · exact ih _ _ _ h

theorem selectBest_ne_nan (l : PathScoreVector) : (selectBest l).2 ≠ .nan :=
  selectBestFrom_ne_nan l 0 0 sentinel (by simp [sentinel])

theorem selectBest_nil : selectBest [] = (0, sentinel) := rfl

/-- The loop either leaves its two variables untouched or ends on an element of
the vector, at that element's index and with that element's score. -/
theorem selectBestFrom_cases (l : PathScoreVector) (i bi : Nat) (bs : Dbl) :
    selectBestFrom i l bi bs = (bi, bs) ∨
      ∃ k b, l[k]? = some b ∧ selectBestFrom i l bi bs = (i + k, b.path_score) := by
  induction l generalizing i bi bs with
  | nil => left; rfl
  | cons p rest ih =>
    unfold selectBestFrom
    split
    · rcases ih (i + 1) i p.path_score with h | ⟨k, b, hk, h⟩
      · right; exact ⟨0, p, by simp, by simpa using h⟩
      · right; exact ⟨k + 1, b, by simpa using hk, by rw [h]; congr 1; omega⟩
    · rcases ih (i + 1) bi bs with h | ⟨k, b, hk, h⟩
      · left; exact h
      · right; exact ⟨k + 1, b, by simpa using hk, by rw [h]; congr 1; omega⟩

/-- On a non-empty vector the selected index is in range. -/
theorem selectBest_idx_lt (l : PathScoreVector) (h : l ≠ []) : (selectBest l).1 < l.length := by
  rcases selectBestFrom_cases l 0 0 sentinel with h0 | ⟨k, b, hk, h0⟩
  · show (selectBestFrom 0 l 0 sentinel).1 < l.length
    rw [h0]
    exact List.length_pos.mpr h
  · show (selectBestFrom 0 l 0 sentinel).1 < l.length
    rw [h0]
    have := (List.getElem?_eq_some.mp hk).1
    simpa using this

theorem selectBest_get (l : PathScoreVector) (h : l ≠ []) : ∃ b, l[(selectBest l).1]? = some b :=
  ⟨l.get ⟨(selectBest l).1, selectBest_idx_lt l h⟩, List.getElem?_eq_getElem _⟩

/-- The loop invariant behind the first-argmax property, for scores that are
numbers: either nothing beats the incoming best score, or the loop ends on the
first element carrying the greatest score. -/
theorem selectBestFrom_argmax (l : PathScoreVector) (i bi : Nat) (bs : Dbl) (hbs : bs ≠ .nan)
    (hl : ∀ p ∈ l, p.path_score ≠ .nan) :
    (selectBestFrom i l bi bs = (bi, bs) ∧ ∀ p ∈ l, p.path_score ≤ bs) ∨
      ∃ k b, l[k]? = some b ∧ selectBestFrom i l bi bs = (i + k, b.path_score) ∧
        bs < b.path_score ∧
        (∀ (j : Nat) (p : PathScore), l[j]? = some p → p.path_score ≤ b.path_score) ∧
        (∀ (j : Nat) (p : PathScore), l[j]? = some p → j < k → p.path_score < b.path_score) := by
  induction l generalizing i bi bs with
  | nil => left; exact ⟨rfl, by simp⟩
  | cons p rest ih =>
    have hp : p.path_score ≠ .nan := hl p (by simp)
    have hrest : ∀ q ∈ rest, q.path_score ≠ .nan := fun q hq => hl q (by simp [hq])
    unfold selectBestFrom
    split
    · next hlt =>
      right
      rcases ih (i + 1) i p.path_score hp hrest with ⟨h, hall⟩ | ⟨k, b, hk, h, hb, hall, hfirst⟩
      · refine ⟨0, p, by simp, by simpa using h, hlt, ?_, ?_⟩
        · intro j q hj
          cases j with
          | zero => simp at hj; subst hj; exact Dbl.le_self hp
          | succ j =>
            simp at hj
            exact hall q (List.getElem?_mem hj)
        · intro j q _ hj0
          omega
      · refine ⟨k + 1, b, by simpa using hk, by rw [h]; congr 1; omega,
          Dbl.trans_lt hlt hb, ?_, ?_⟩
        · intro j q hj
          cases j with
          | zero => simp at hj; subst hj; exact Dbl.le_of_lt hb
          | succ j => simp at hj; exact hall j q hj
        · intro j q hj hjk
          cases j with
          | zero => simp at hj; subst hj; exact hb
          | succ j => simp at hj; exact hfirst j q hj (by omega)
    · next hnlt =>
      have hple : p.path_score ≤ bs := Dbl.le_of_not_lt hbs hp hnlt
      rcases ih (i + 1) bi bs hbs hrest with ⟨h, hall⟩ | ⟨k, b, hk, h, hb, hall, hfirst⟩
      · left
        refine ⟨h, ?_⟩
        intro q hq
        rcases List.mem_cons.mp hq with rfl | hq
        · exact hple
        · exact hall q hq
      · right
        have hpb : p.path_score < b.path_score := Dbl.lt_of_le_of_lt hple hb
        refine ⟨k + 1, b, by simpa using hk, by rw [h]; congr 1; omega, hb, ?_, ?_⟩
        · intro j q hj
          cases j with
          | zero => simp at hj; subst hj; exact Dbl.le_of_lt hpb
          | succ j => simp at hj; exact hall j q hj
        · intro j q hj hjk
          cases j with
          | zero => simp at hj; subst hj; exact hpb
          | succ j => simp at hj; exact hfirst j q hj (by omega)

/-- Claim C7: best-path selection is a first-argmax. On a non-empty path-score
vector whose scores are all greater than the sentinel `-DBL_MAX`, the selected
index `b` is in range, the recorded best score is the score at `b`, every score
of the vector is at most the score at `b`, and every score at an index below `b`
is strictly smaller (among equal maximal scores the lowest index wins). -/
theorem selectBest_first_argmax (psv : PathScoreVector) (hne : psv ≠ [])
    (hall : ∀ p ∈ psv, sentinel < p.path_score) :
    ∃ b, psv[(selectBest psv).1]? = some b ∧
      (selectBest psv).2 = b.path_score ∧
      (∀ (j : Nat) (p : PathScore), psv[j]? = some p → p.path_score ≤ b.path_score) ∧
      (∀ (j : Nat) (p : PathScore), psv[j]? = some p → j < (selectBest psv).1 → p.path_score < b.path_score) := by
  have hnan : ∀ p ∈ psv, p.path_score ≠ .nan := fun p hp => Dbl.ne_nan_of_lt_right (hall p hp)
  rcases selectBestFrom_argmax psv 0 0 sentinel (by simp [sentinel]) hnan with
    ⟨_, hle⟩ | ⟨k, b, hk, h, _, hmax, hfirst⟩
  · exfalso
    obtain ⟨p, hp⟩ := List.exists_mem_of_ne_nil psv hne
    exact Dbl.not_lt_of_le (hle p hp) (hall p hp)
  · have h1 : (selectBest psv).1 = k := by
      show (selectBestFrom 0 psv 0 sentinel).1 = k
      rw [h]; simp
    have h2 : (selectBest psv).2 = b.path_score := by
      show (selectBestFrom 0 psv 0 sentinel).2 = b.path_score
      rw [h]
    refine ⟨b, by rw [h1]; exact hk, h2, hmax, ?_⟩
    intro j p hj hjk
    exact hfirst j p hj (by omega)

/-- A vector satisfying the hypotheses of `selectBest_first_argmax`, with a tie
for the greatest score: the first of the two maximal paths is selected. -/
theorem selectBest_first_argmax_witness :
    ∃ b, ([⟨[], .fin (-50), []⟩, ⟨[], .fin (-3), []⟩, ⟨[], .fin (-3), []⟩] :
        PathScoreVector)[(selectBest
          [⟨[], .fin (-50), []⟩, ⟨[], .fin (-3), []⟩, ⟨[], .fin (-3), []⟩]).1]? = some b ∧
      (selectBest [⟨[], .fin (-50), []⟩, ⟨[], .fin (-3), []⟩, ⟨[], .fin (-3), []⟩]).2
        = b.path_score ∧
      (∀ (j : Nat) (p : PathScore), ([⟨[], .fin (-50), []⟩, ⟨[], .fin (-3), []⟩, ⟨[], .fin (-3), []⟩] :
        PathScoreVector)[j]? = some p → p.path_score ≤ b.path_score) ∧
      (∀ (j : Nat) (p : PathScore), ([⟨[], .fin (-50), []⟩, ⟨[], .fin (-3), []⟩, ⟨[], .fin (-3), []⟩] :
        PathScoreVector)[j]? = some p →
        j < (selectBest [⟨[], .fin (-50), []⟩, ⟨[], .fin (-3), []⟩, ⟨[], .fin (-3), []⟩]).1 →
        p.path_score < b.path_score) :=
  selectBest_first_argmax _ (by simp) (by
    intro p hp
    simp only [List.mem_cons, List.mem_singleton, List.not_mem_nil, or_false] at hp
    rcases hp with rfl | rfl | rfl <;>
      simp only [sentinel, DBL_MAX, Dbl.lt_def, Dbl.lt] <;> norm_num)

theorem Dbl.le_antisymm {a b : Dbl} (h₁ : a ≤ b) (h₂ : b ≤ a) : a = b := by
  cases a <;> cases b <;> simp_all [Dbl.le_def, Dbl.le]
  exact h₁.antisymm h₂

theorem Dbl.ne_nan_of_le_left {a b : Dbl} (h : a ≤ b) : a ≠ .nan := by
  cases a <;> cases b <;> simp_all [Dbl.le_def, Dbl.le]

/-- The best score recorded by the loop is the sentinel or a score of the
vector. -/
theorem selectBest_snd_cases (psv : PathScoreVector) :
    (selectBest psv).2 = sentinel ∨ ∃ p ∈ psv, (selectBest psv).2 = p.path_score := by
  rcases selectBestFrom_cases psv 0 0 sentinel with h | ⟨k, b, hk, h⟩
  · left
    show (selectBestFrom 0 psv 0 sentinel).2 = sentinel
    rw [h]
  · right
    refine ⟨b, List.getElem?_mem hk, ?_⟩
    show (selectBestFrom 0 psv 0 sentinel).2 = b.path_score
    rw [h]

/-- When the vector has a greatest score above the sentinel, the loop records
it. -/
theorem selectBest_snd_of_isMaxScore (psv : PathScoreVector) (m : Dbl)
    (h : isMaxScore psv m) (hm : sentinel < m) : (selectBest psv).2 = m := by
  obtain ⟨⟨q, hq, hqm⟩, hmax⟩ := h
  have hnan : ∀ p ∈ psv, p.path_score ≠ .nan := fun p hp => Dbl.ne_nan_of_le_left (hmax p hp)
  rcases selectBestFrom_argmax psv 0 0 sentinel (by simp [sentinel]) hnan with
    ⟨_, hle⟩ | ⟨k, b, hk, h, _, hall, _⟩
  · exfalso
    have := hle q hq
    rw [hqm] at this
    exact Dbl.not_lt_of_le this hm
  · show (selectBestFrom 0 psv 0 sentinel).2 = m
    rw [h]
    have h1 : b.path_score ≤ m := hmax b (List.getElem?_mem hk)
    obtain ⟨j, hj⟩ := List.mem_iff_getElem?.mp hq
    have h2 : m ≤ b.path_score := by
      rw [← hqm]
      exact hall j q hj
    exact Dbl.le_antisymm h1 h2

/-- When the greatest score of the vector is below the cutoff, so is the best
score recorded by the loop. -/
theorem selectBest_lt_cutoff_of_isMaxScore (psv : PathScoreVector) (m : Dbl)
    (h : isMaxScore psv m) (hm : m < cutoff) : (selectBest psv).2 < cutoff := by
  rcases selectBest_snd_cases psv with h0 | ⟨p, hp, h0⟩
  · rw [h0]
    exact sentinel_lt_cutoff
  · rw [h0]
    exact Dbl.lt_of_le_of_lt (h.2 p hp) hm

/-! ## The four branches of `trieCorrect` -/

theorem usable_iff (psv : PathScoreVector) :
    usable psv ↔ psv ≠ [] ∧ ¬ (selectBest psv).2 < cutoff := by
  unfold usable
  constructor
  · rintro ⟨h, hle⟩
    exact ⟨h, Dbl.not_lt_of_le hle⟩
  · rintro ⟨h, hnlt⟩
    exact ⟨h, Dbl.le_of_not_lt (selectBest_ne_nan psv) (by simp [cutoff]) hnlt⟩

theorem unusable_iff (psv : PathScoreVector) : unusable psv ↔ ¬ usable psv := by
  rw [usable_iff]
  unfold unusable
  tauto

theorem unusable_nil : unusable [] := Or.inl rfl

/-- A vector whose greatest score is at least the cutoff is usable. -/
theorem usable_of_isMaxScore (psv : PathScoreVector) (m : Dbl) (h : isMaxScore psv m)
    (hm : cutoff ≤ m) : usable psv := by
  have hs : sentinel < m := Dbl.lt_of_lt_of_le sentinel_lt_cutoff hm
  refine ⟨?_, ?_⟩
  · rintro rfl
    obtain ⟨⟨q, hq, _⟩, _⟩ := h
    simp at hq
  · rw [selectBest_snd_of_isMaxScore psv m h hs]
    exact hm

/-- A vector whose greatest score is below the cutoff is not usable. -/
theorem unusable_of_isMaxScore (psv : PathScoreVector) (m : Dbl) (h : isMaxScore psv m)
    (hm : m < cutoff) : unusable psv :=
  Or.inr (selectBest_lt_cutoff_of_isMaxScore psv m h hm)

theorem consensusOf_keep {T : Type} (env : Env T) (original : Str) (L R : PathScoreVector)
    (h : (L = [] ∧ R = []) ∨ ((selectBest L).2 < cutoff ∧ (selectBest R).2 < cutoff)) :
    consensusOf env original L R = some original := by
  simp only [consensusOf]
  rw [if_pos h]

theorem keep_of_unusable {L R : PathScoreVector} (hl : unusable L) (hr : unusable R) :
    (L = [] ∧ R = []) ∨ ((selectBest L).2 < cutoff ∧ (selectBest R).2 < cutoff) := by
  rcases hl with hl | hl
  · rcases hr with hr | hr
    · exact Or.inl ⟨hl, hr⟩
    · right
      refine ⟨?_, hr⟩
      rw [hl, selectBest_nil]
      exact sentinel_lt_cutoff
  · rcases hr with hr | hr
    · right
      refine ⟨hl, ?_⟩
      rw [hr, selectBest_nil]
      exact sentinel_lt_cutoff
    · exact Or.inr ⟨hl, hr⟩

theorem consensusOf_unusable {T : Type} (env : Env T) (original : Str) (L R : PathScoreVector)
    (hl : unusable L) (hr : unusable R) : consensusOf env original L R = some original :=
  consensusOf_keep env original L R (keep_of_unusable hl hr)

theorem not_keep_of_usable {L R : PathScoreVector} (h : usable L ∨ usable R) :
    ¬ ((L = [] ∧ R = []) ∨ ((selectBest L).2 < cutoff ∧ (selectBest R).2 < cutoff)) := by
  rintro (⟨hl, hr⟩ | ⟨hl, hr⟩)
  · rcases h with h | h
    · exact h.1 hl
    · exact h.1 hr
  · rcases h with h | h
    · exact ((usable_iff L).mp h).2 hl
    · exact ((usable_iff R).mp h).2 hr

theorem consensusOf_right {T : Type} (env : Env T) (original : Str) (L R : PathScoreVector)
    (hl : unusable L) (hr : usable R) :
    consensusOf env original L R = (R[(selectBest R).1]?).map PathScore.path_corrected := by
  have hl2 : L = [] ∨ (selectBest L).2 < cutoff := hl
  simp only [consensusOf]
  rw [if_neg (not_keep_of_usable (Or.inr hr)), if_pos hl2]

theorem consensusOf_left {T : Type} (env : Env T) (original : Str) (L R : PathScoreVector)
    (hl : usable L) (hr : unusable R) :
    consensusOf env original L R = (L[(selectBest L).1]?).map PathScore.path_corrected := by
  have hl2 : ¬ (L = [] ∨ (selectBest L).2 < cutoff) := (unusable_iff L).not.mpr (not_not.mpr hl)
  have hr2 : R = [] ∨ (selectBest R).2 < cutoff := hr
  simp only [consensusOf]
  rw [if_neg (not_keep_of_usable (Or.inl hl)), if_neg hl2, if_pos hr2]

theorem consensusOf_both {T : Type} (env : Env T) (original : Str) (L R : PathScoreVector)
    (left right : PathScore) (hl : usable L) (hr : usable R)
    (hleft : L[(selectBest L).1]? = some left) (hright : R[(selectBest R).1]? = some right) :
    consensusOf env original L R = mergeLoop env left right original.length := by
  have hl2 : ¬ (L = [] ∨ (selectBest L).2 < cutoff) := (unusable_iff L).not.mpr (not_not.mpr hl)
  have hr2 : ¬ (R = [] ∨ (selectBest R).2 < cutoff) := (unusable_iff R).not.mpr (not_not.mpr hr)
  simp only [consensusOf]
  rw [if_neg (not_keep_of_usable (Or.inl hl)), if_neg hl2, if_neg hr2, hleft, hright]

/-- Claim C1: when both path-score vectors are empty, or when the best path
score on the left and the best path score on the right are both below the
cutoff -40, `trieCorrect` returns exactly the original sequence. -/
theorem trieCorrect_keeps_original {T : Type} (env : Env T) (original : Str) (p_error : Dbl)
    (leftTrie rightTrie : T)
    (h : (left_psv env original p_error leftTrie = [] ∧
          right_psv env original p_error rightTrie = []) ∨
        ((selectBest (left_psv env original p_error leftTrie)).2 < cutoff ∧
          (selectBest (right_psv env original p_error rightTrie)).2 < cutoff)) :
    trieCorrect env original p_error leftTrie rightTrie = some original :=
  consensusOf_keep env original _ _ h

/-- Claim C8: an empty side counts as below the cutoff, because its best score
stays at the sentinel `-DBL_MAX`, which is below -40: when one vector is empty
and the other is non-empty with best score below -40, `trieCorrect` returns the
original sequence, whichever of the two sides is the empty one. -/
theorem trieCorrect_empty_side_below_cutoff {T : Type} (env : Env T) (original : Str)
    (p_error : Dbl) (leftTrie rightTrie : T)
    (h : (left_psv env original p_error leftTrie = [] ∧
          right_psv env original p_error rightTrie ≠ [] ∧
          (selectBest (right_psv env original p_error rightTrie)).2 < cutoff) ∨
        (right_psv env original p_error rightTrie = [] ∧
          left_psv env original p_error leftTrie ≠ [] ∧
          (selectBest (left_psv env original p_error leftTrie)).2 < cutoff)) :
    trieCorrect env original p_error leftTrie rightTrie = some original ∧
      (selectBest ([] : PathScoreVector)).2 = sentinel ∧ sentinel < cutoff := by
  refine ⟨?_, rfl, sentinel_lt_cutoff⟩
  rcases h with ⟨hl, _, hr⟩ | ⟨hr, _, hl⟩
  · exact consensusOf_unusable env original _ _ (Or.inl hl) (Or.inr hr)
  · exact consensusOf_unusable env original _ _ (Or.inr hl) (Or.inl hr)

/-- Claim C2: when exactly one side is usable (non-empty with best path score at
least -40) and the other is empty or has best path score below -40,
`trieCorrect` returns the corrected sequence of the usable side's best path: the
left best path's `path_corrected` when only the left is usable, and, when only
the right is usable, the `path_corrected` of the right best path once
`reverse()` has put it back in the original orientation. -/
theorem trieCorrect_one_side_usable {T : Type} (env : Env T) (original : Str) (p_error : Dbl)
    (leftTrie rightTrie : T)
    (h : (usable (left_psv env original p_error leftTrie) ∧
          unusable (right_psv env original p_error rightTrie)) ∨
        (usable (right_psv env original p_error rightTrie) ∧
          unusable (left_psv env original p_error leftTrie))) :
    (usable (left_psv env original p_error leftTrie) →
      ∃ best, (left_psv env original p_error leftTrie)[
          (selectBest (left_psv env original p_error leftTrie)).1]? = some best ∧
        trieCorrect env original p_error leftTrie rightTrie = some best.path_corrected) ∧
    (usable (right_psv env original p_error rightTrie) →
      ∃ raw, (env.score original.reverse p_error (env.remodel 2 (env.log p_error) rightTrie))[
          (selectBest (right_psv env original p_error rightTrie)).1]? = some raw ∧
        trieCorrect env original p_error leftTrie rightTrie =
          some (env.reverse raw).path_corrected) := by
  constructor
  · intro hl
    have hr : unusable (right_psv env original p_error rightTrie) := by
      rcases h with h | h
      · exact h.2
      · exact absurd hl ((unusable_iff _).mp h.2)
    obtain ⟨best, hbest⟩ := selectBest_get _ hl.1
    refine ⟨best, hbest, ?_⟩
    unfold trieCorrect
    rw [consensusOf_left env original _ _ hl hr, hbest]
    rfl
  · intro hr
    have hl : unusable (left_psv env original p_error leftTrie) := by
      rcases h with h | h
      · exact absurd hr ((unusable_iff _).mp h.2)
      · exact h.2
    obtain ⟨best, hbest⟩ := selectBest_get _ hr.1
    have hbest2 := hbest
    unfold right_psv at hbest2
    rw [List.getElem?_map] at hbest2
    obtain ⟨raw, hraw, hrev⟩ := Option.map_eq_some'.mp hbest2
    refine ⟨raw, hraw, ?_⟩
    unfold trieCorrect
    rw [consensusOf_right env original _ _ hl hr, hbest, ← hrev]
    rfl

/-- The scenario of the specification for `trieCorrect_keeps_original`: both
best scores are -45, below the cutoff, and the original comes back. -/
theorem trieCorrect_keeps_original_witness :
    trieCorrect tableEnv "ACGTACGT".toList egErrorRate
      [⟨"ACGAACGT".toList, .fin (-45), []⟩] [⟨"TGCATGCT".toList, .fin (-45), []⟩]
      = some "ACGTACGT".toList :=
  trieCorrect_keeps_original tableEnv _ _ _ _ (Or.inr (by decide))

/-- An instance of `trieCorrect_empty_side_below_cutoff`: the left vector is
empty, the only right path scores -45, and the original comes back rather than
that path. -/
theorem trieCorrect_empty_side_below_cutoff_witness :
    trieCorrect tableEnv "ACGTACGT".toList egErrorRate
      [] [⟨"TGCATGCT".toList, .fin (-45), []⟩] = some "ACGTACGT".toList ∧
      (selectBest ([] : PathScoreVector)).2 = sentinel ∧ sentinel < cutoff :=
  trieCorrect_empty_side_below_cutoff tableEnv _ _ _ _ (Or.inl (by decide))

/-- The scenario of the specification for `trieCorrect_one_side_usable`: the
original is ACGTACGT, the left best path is ACGAACGT with score -10, the right
vector is empty, and the consensus is ACGAACGT; and the mirror case, in which
the only path comes from the right trie, in reverse orientation. -/
theorem trieCorrect_one_side_usable_witness :
    trieCorrect tableEnv "ACGTACGT".toList egErrorRate
        [⟨"ACGAACGT".toList, .fin (-10), []⟩] [] = some "ACGAACGT".toList ∧
      trieCorrect tableEnv "ACGTACGT".toList egErrorRate
        [] [⟨"TGCAAGCA".toList, .fin (-10), []⟩] = some "ACGAACGT".toList := by
  constructor
  · obtain ⟨best, hbest, h⟩ := (trieCorrect_one_side_usable tableEnv "ACGTACGT".toList
      egErrorRate [⟨"ACGAACGT".toList, .fin (-10), []⟩] [] (Or.inl (by decide))).1
      (by decide)
    have hb : some best = some (⟨"ACGAACGT".toList, .fin (-10), []⟩ : PathScore) := by
      rw [← hbest]
      decide
    rw [h, Option.some.inj hb]
  · obtain ⟨raw, hraw, h⟩ := (trieCorrect_one_side_usable tableEnv "ACGTACGT".toList
      egErrorRate [] [⟨"TGCAAGCA".toList, .fin (-10), []⟩] (Or.inr (by decide))).2
      (by decide)
    have hb : some raw = some (⟨"TGCAAGCA".toList, .fin (-10), []⟩ : PathScore) := by
      rw [← hraw]
      decide
    rw [h, Option.some.inj hb]
    decide

/-! ## The merge loop -/

theorem mergeChar_eq {T : Type} (env : Env T) (left right : PathScore) (i : Nat)
    (a b : Char) (x y : Dbl)
    (ha : left.path_corrected[i]? = some a) (hb : right.path_corrected[i]? = some b)
    (hx : left.probVector[i]? = some x) (hy : right.probVector[i]? = some y) :
    mergeChar env left right i =
      some (if a = b then a else if combined env left x < combined env right y then a else b) := by
  unfold mergeChar
  rw [ha, hb, hx, hy]
  by_cases hab : a = b
  · simp [hab]
  · by_cases hlt : combined env left x < combined env right y
    · simp [hab, hlt]
    · simp [hab, hlt]

theorem mergeLoop_spec {T : Type} (env : Env T) (left right : PathScore) (n : Nat)
    (h : ∀ i, i < n → ∃ c, mergeChar env left right i = some c) :
    ∃ s, mergeLoop env left right n = some s ∧ s.length = n ∧
      ∀ i, i < n → s[i]? = mergeChar env left right i := by
  induction n with
  | zero => exact ⟨[], rfl, rfl, fun i hi => absurd hi (Nat.not_lt_zero i)⟩
  | succ n ih =>
    obtain ⟨s, hs, hlen, hget⟩ := ih (fun i hi => h i (Nat.lt_succ_of_lt hi))
    obtain ⟨c, hc⟩ := h n (Nat.lt_succ_self n)
    refine ⟨s ++ [c], ?_, by simp [hlen], ?_⟩
    · simp only [mergeLoop]
      rw [hs, hc]
    · intro i hi
      rcases Nat.lt_succ_iff_lt_or_eq.mp hi with hlt | rfl
      · rw [List.getElem?_append_left (by omega), hget i hlt]
      · rw [hc, ← hlen]
        simp

/-- The merge branch as a whole: with both sides usable and every path long
enough for the original, the call returns a sequence of the original's length
whose character at each position is the one chosen by lines 125-138. -/
theorem consensusOf_merge_spec {T : Type} (env : Env T) (original : Str)
    (L R : PathScoreVector) (hl : usable L) (hr : usable R)
    (cl : covers original L) (cr : covers original R) :
    ∃ left right res, L[(selectBest L).1]? = some left ∧ R[(selectBest R).1]? = some right ∧
      consensusOf env original L R = some res ∧ res.length = original.length ∧
      ∀ i, i < original.length → ∃ a b x y,
        left.path_corrected[i]? = some a ∧ right.path_corrected[i]? = some b ∧
        left.probVector[i]? = some x ∧ right.probVector[i]? = some y ∧
        res[i]? = some (if a = b then a
          else if combined env left x < combined env right y then a else b) := by
  obtain ⟨left, hleft⟩ := selectBest_get L hl.1
  obtain ⟨right, hright⟩ := selectBest_get R hr.1
  have hcl := cl left (List.getElem?_mem hleft)
  have hcr := cr right (List.getElem?_mem hright)
  have hacc : ∀ i, i < original.length → ∃ a b x y,
      left.path_corrected[i]? = some a ∧ right.path_corrected[i]? = some b ∧
      left.probVector[i]? = some x ∧ right.probVector[i]? = some y := by
    intro i hi
    exact ⟨left.path_corrected.get ⟨i, by omega⟩, right.path_corrected.get ⟨i, by omega⟩,
      left.probVector.get ⟨i, by omega⟩, right.probVector.get ⟨i, by omega⟩,
      List.getElem?_eq_getElem _, List.getElem?_eq_getElem _,
      List.getElem?_eq_getElem _, List.getElem?_eq_getElem _⟩
  obtain ⟨res, hc, hlen, hget⟩ := mergeLoop_spec env left right original.length (by
    intro i hi
    obtain ⟨a, b, x, y, ha, hb, hx, hy⟩ := hacc i hi
    exact ⟨_, mergeChar_eq env left right i a b x y ha hb hx hy⟩)
  refine ⟨left, right, res, hleft, hright, ?_, hlen, ?_⟩
  · rw [consensusOf_both env original L R left right hl hr hleft hright, hc]
  · intro i hi
    obtain ⟨a, b, x, y, ha, hb, hx, hy⟩ := hacc i hi
    exact ⟨a, b, x, y, ha, hb, hx, hy, by
      rw [hget i hi, mergeChar_eq env left right i a b x y ha hb hx hy]⟩


/-- Claim C4, as the code has it: in the merge, at a position where the left
best path emits A with combined value -5 and the right best path emits G with
combined value -50, the merged consensus emits G, the character of the side
with the lower value. -/
theorem trieCorrect_merge_lower_value {T : Type} (env : Env T) (original : Str)
    (p_error : Dbl) (leftTrie rightTrie : T)
    (hl : usable (left_psv env original p_error leftTrie))
    (hr : usable (right_psv env original p_error rightTrie))
    (cl : covers original (left_psv env original p_error leftTrie))
    (cr : covers original (right_psv env original p_error rightTrie)) :
    ∃ left right res,
      (left_psv env original p_error leftTrie)[
        (selectBest (left_psv env original p_error leftTrie)).1]? = some left ∧
      (right_psv env original p_error rightTrie)[
        (selectBest (right_psv env original p_error rightTrie)).1]? = some right ∧
      trieCorrect env original p_error leftTrie rightTrie = some res ∧
      ∀ i, i < original.length →
        left.path_corrected[i]? = some 'A' → right.path_corrected[i]? = some 'G' →
        (left.probVector[i]?).map (combined env left) = some (.fin (-5)) →
        (right.probVector[i]?).map (combined env right) = some (.fin (-50)) →
        res[i]? = some 'G' := by
  obtain ⟨left, right, res, hleft, hright, hres, _, hall⟩ :=
    consensusOf_merge_spec env original _ _ hl hr cl cr
  refine ⟨left, right, res, hleft, hright, hres, ?_⟩
  intro i hi hA hG hls hrs
  obtain ⟨a, b, x, y, ha, hb, hx, hy, hc⟩ := hall i hi
  rw [hx] at hls
  rw [hy] at hrs
  have hls2 : combined env left x = .fin (-5) := Option.some.inj hls
  have hrs2 : combined env right y = .fin (-50) := Option.some.inj hrs
  have ha2 : a = 'A' := Option.some.inj (ha.symm.trans hA)
  have hb2 : b = 'G' := Option.some.inj (hb.symm.trans hG)
  rw [hc, hls2, hrs2, ha2, hb2, if_neg (by decide), if_neg (by decide)]

/-- An instance of `trieCorrect_merge_lower_value`: the paths ACGT, with value
-5 at position 0, and GCGT, with value -50 there. -/
theorem trieCorrect_merge_lower_value_witness :
    ∃ left right res,
      (left_psv tableEnv egOriginal egErrorRate egLeft)[
        (selectBest (left_psv tableEnv egOriginal egErrorRate egLeft)).1]? = some left ∧
      (right_psv tableEnv egOriginal egErrorRate egRight)[
        (selectBest (right_psv tableEnv egOriginal egErrorRate egRight)).1]? = some right ∧
      trieCorrect tableEnv egOriginal egErrorRate egLeft egRight = some res ∧
      ∀ i, i < egOriginal.length →
        left.path_corrected[i]? = some 'A' → right.path_corrected[i]? = some 'G' →
        (left.probVector[i]?).map (combined tableEnv left) = some (.fin (-5)) →
        (right.probVector[i]?).map (combined tableEnv right) = some (.fin (-50)) →
        res[i]? = some 'G' :=
  trieCorrect_merge_lower_value tableEnv egOriginal egErrorRate egLeft egRight
    (by decide) (by decide) (by decide) (by decide)

/-- Claim C4 fails as stated: both sides are usable, at position 0 the left best
path emits A with combined value `log(1 - 0) + (-5) = -5` and the right best
path emits G with combined value `log(1 - 0) + (-50) = -50`, and the merged
consensus is GCGT: it emits G at position 0, not A. -/
theorem trieCorrect_merge_emits_A_counterexample :
    usable (left_psv tableEnv egOriginal egErrorRate egLeft) ∧
    usable (right_psv tableEnv egOriginal egErrorRate egRight) ∧
    (left_psv tableEnv egOriginal egErrorRate egLeft)[
      (selectBest (left_psv tableEnv egOriginal egErrorRate egLeft)).1]? = some egLeftBest ∧
    (right_psv tableEnv egOriginal egErrorRate egRight)[
      (selectBest (right_psv tableEnv egOriginal egErrorRate egRight)).1]? = some egRightBest ∧
    egLeftBest.path_corrected[0]? = some 'A' ∧
    egRightBest.path_corrected[0]? = some 'G' ∧
    (egLeftBest.probVector[0]?).map (combined tableEnv egLeftBest) = some (.fin (-5)) ∧
    (egRightBest.probVector[0]?).map (combined tableEnv egRightBest) = some (.fin (-50)) ∧
    trieCorrect tableEnv egOriginal egErrorRate egLeft egRight = some "GCGT".toList ∧
    "GCGT".toList[0]? = some 'G' ∧ "GCGT".toList[0]? ≠ some 'A' := by
  refine ⟨by decide, by decide, by decide, by decide, by decide, by decide, ?_, ?_, ?_,
    by decide, by decide⟩
  · simp [egLeftBest, combined, tableEnv, tableOps, exactAdd, exactSub, tableLog]
  · simp [egRightBest, combined, tableEnv, tableOps, exactAdd, exactSub, tableLog]
  · simp [trieCorrect, consensusOf, left_psv, right_psv, tableEnv, tableOps, egLeft, egRight,
      egLeftBest, egRightRaw, egOriginal, selectBest, selectBestFrom, mergeLoop, mergeChar,
      combined, exactAdd, exactSub, tableLog, Dbl.lt_def, Dbl.lt, sentinel, cutoff, DBL_MAX,
      PathScore.reverse]
    norm_num

/-- Claim C10: `trieCorrect` never indexes out of bounds. When every path can
be read at each position of the original, the call returns a sequence (no
access of the embedding fails); `right_psv[rightBestIdx]` is read (line 104, or
line 114) only with the right vector non-empty and the index below its size;
`left_psv[leftBestIdx]` is read (line 108, or line 113) only with the left
vector non-empty and the index below its size; in the merge every position
`i` below the length of the original is in range of the two `path_corrected`
and the two `probVector`, and the merged result has exactly the length of the
original. -/
theorem trieCorrect_in_bounds {T : Type} (env : Env T) (original : Str) (p_error : Dbl)
    (leftTrie rightTrie : T) (L R : PathScoreVector)
    (hL : left_psv env original p_error leftTrie = L)
    (hR : right_psv env original p_error rightTrie = R)
    (cl : covers original L) (cr : covers original R) :
    (∃ res, trieCorrect env original p_error leftTrie rightTrie = some res ∧
      (usable L → usable R → res.length = original.length)) ∧
    (¬ ((L = [] ∧ R = []) ∨ ((selectBest L).2 < cutoff ∧ (selectBest R).2 < cutoff)) →
      (unusable L ∨ ¬ unusable R) → R ≠ [] ∧ (selectBest R).1 < R.length) ∧
    (¬ ((L = [] ∧ R = []) ∨ ((selectBest L).2 < cutoff ∧ (selectBest R).2 < cutoff)) →
      ¬ unusable L → L ≠ [] ∧ (selectBest L).1 < L.length) ∧
    (usable L → usable R → ∃ left right,
      L[(selectBest L).1]? = some left ∧ R[(selectBest R).1]? = some right ∧
      ∀ i, i < original.length →
        i < left.path_corrected.length ∧ i < right.path_corrected.length ∧
        i < left.probVector.length ∧ i < right.probVector.length) := by
  subst hL hR
  refine ⟨?_, ?_, ?_, ?_⟩
  · unfold trieCorrect
    by_cases hl : usable (left_psv env original p_error leftTrie)
    · by_cases hr : usable (right_psv env original p_error rightTrie)
      · obtain ⟨_, _, res, _, _, hres, hlen, _⟩ :=
          consensusOf_merge_spec env original _ _ hl hr cl cr
        exact ⟨res, hres, fun _ _ => hlen⟩
      · obtain ⟨best, hbest⟩ := selectBest_get _ hl.1
        refine ⟨best.path_corrected, ?_, fun _ h => absurd h hr⟩
        rw [consensusOf_left env original _ _ hl ((unusable_iff _).mpr hr), hbest]
        rfl
    · by_cases hr : usable (right_psv env original p_error rightTrie)
      · obtain ⟨best, hbest⟩ := selectBest_get _ hr.1
        refine ⟨best.path_corrected, ?_, fun h _ => absurd h hl⟩
        rw [consensusOf_right env original _ _ ((unusable_iff _).mpr hl) hr, hbest]
        rfl
      · exact ⟨original, consensusOf_unusable env original _ _ ((unusable_iff _).mpr hl)
          ((unusable_iff _).mpr hr), fun h _ => absurd h hl⟩
  · intro hkeep hcase
    have hne : right_psv env original p_error rightTrie ≠ [] := by
      intro hnil
      rcases hcase with hl | hr
      · exact hkeep (keep_of_unusable hl (Or.inl hnil))
      · exact hr (Or.inl hnil)
    exact ⟨hne, selectBest_idx_lt _ hne⟩
  · intro _ hl
    have hne : left_psv env original p_error leftTrie ≠ [] := fun hnil => hl (Or.inl hnil)
    exact ⟨hne, selectBest_idx_lt _ hne⟩
  · intro hl hr
    obtain ⟨left, hleft⟩ := selectBest_get _ hl.1
    obtain ⟨right, hright⟩ := selectBest_get _ hr.1
    have hcl := cl left (List.getElem?_mem hleft)
    have hcr := cr right (List.getElem?_mem hright)
    exact ⟨left, right, hleft, hright, fun i hi => ⟨by omega, by omega, by omega, by omega⟩⟩

/-- An instance of `trieCorrect_in_bounds`: the merge of the paths ACGT and GCGT
over the original ACGT. -/
theorem trieCorrect_in_bounds_witness :
    (∃ res, trieCorrect tableEnv egOriginal egErrorRate egLeft egRight = some res ∧
      (usable [egLeftBest] → usable [egRightBest] → res.length = egOriginal.length)) ∧
    (¬ ((([egLeftBest] : PathScoreVector) = [] ∧ ([egRightBest] : PathScoreVector) = []) ∨
        ((selectBest [egLeftBest]).2 < cutoff ∧ (selectBest [egRightBest]).2 < cutoff)) →
      (unusable [egLeftBest] ∨ ¬ unusable [egRightBest]) →
      ([egRightBest] : PathScoreVector) ≠ [] ∧
        (selectBest [egRightBest]).1 < ([egRightBest] : PathScoreVector).length) ∧
    (¬ ((([egLeftBest] : PathScoreVector) = [] ∧ ([egRightBest] : PathScoreVector) = []) ∨
        ((selectBest [egLeftBest]).2 < cutoff ∧ (selectBest [egRightBest]).2 < cutoff)) →
      ¬ unusable [egLeftBest] →
      ([egLeftBest] : PathScoreVector) ≠ [] ∧
        (selectBest [egLeftBest]).1 < ([egLeftBest] : PathScoreVector).length) ∧
    (usable [egLeftBest] → usable [egRightBest] → ∃ left right,
      ([egLeftBest] : PathScoreVector)[(selectBest [egLeftBest]).1]? = some left ∧
      ([egRightBest] : PathScoreVector)[(selectBest [egRightBest]).1]? = some right ∧
      ∀ i, i < egOriginal.length →
        i < left.path_corrected.length ∧ i < right.path_corrected.length ∧
        i < left.probVector.length ∧ i < right.probVector.length) :=
  trieCorrect_in_bounds tableEnv egOriginal egErrorRate egLeft egRight
    [egLeftBest] [egRightBest] (by decide) (by decide) (by decide) (by decide)

/-! ## `correctVertex` on a vertex without neighbours -/

theorem remodel_empty (m : ErrorModel) (minDepth : Nat) (floor : Dbl) :
    SeqTrie.remodel m minDepth floor (.node []) = .node [] := by
  unfold SeqTrie.remodel SeqTrie.remodelAt
  simp [SeqTrie.collapse, SeqTrie.bump]

theorem score_empty_cons (f : FloatOps) (m : ErrorModel) (c : Char) (cs : Str) (p_error : Dbl) :
    SeqTrie.score f m (c :: cs) p_error (.node []) = [] := by
  simp [SeqTrie.score, SeqTrie.walk]

theorem score_nil (f : FloatOps) (m : ErrorModel) (p_error : Dbl) (t : SeqTrie) :
    SeqTrie.score f m [] p_error t = [⟨[], .fin 0, []⟩] := by
  simp [SeqTrie.score, SeqTrie.walk]

theorem makeExtendedSeqTries_no_neighbours (m : ErrorModel) (g : StringGraph) (v : Vertex)
    (p_error : Dbl) (h : g.neighbours v = []) :
    makeExtendedSeqTries m g v p_error = (.node [], .node []) := by
  simp [makeExtendedSeqTries, h]

theorem calculateConsensus_no_neighbours (m : ErrorModel) (g : StringGraph) (v : Vertex)
    (p_error : Dbl) (h : g.neighbours v = []) :
    (makeExtendedMultiOverlap g v).calculateConsensusFromPartition m p_error = v.seq := by
  simp [MultiOverlap.calculateConsensusFromPartition, makeExtendedMultiOverlap, h,
    MultiOverlap.column, columnVote]

theorem trieCorrect_empty_tries (f : FloatOps) (m : ErrorModel) (original : Str)
    (p_error : Dbl) :
    trieCorrect (specEnv f m) original p_error (.node []) (.node []) = some original := by
  unfold trieCorrect left_psv right_psv
  simp only [specEnv, remodel_empty]
  cases original with
  | nil =>
    rw [List.reverse_nil, score_nil]
    simp [consensusOf, selectBest, selectBestFrom, sentinel, cutoff, DBL_MAX, Dbl.lt_def,
      Dbl.lt, mergeLoop, PathScore.reverse]
  | cons c cs =>
    rw [score_empty_cons]
    cases hrev : (c :: cs).reverse with
    | nil => simp at hrev
    | cons d ds =>
      rw [score_empty_cons]
      exact consensusOf_keep _ _ _ _ (Or.inl ⟨rfl, rfl⟩)

/-- Claim C5: for a read without overlapping neighbours in the string graph,
`correctVertex` returns the read's sequence unchanged, whichever branch is
taken: `trieCorrect` on the tries built from the empty neighbour set returns
it, `calculateConsensusFromPartition` returns it, and so does `correctVertex`
for every outcome of the conflict test. -/
theorem correctVertex_no_neighbours (f : FloatOps) (m : ErrorModel)
    (isConflicted : MultiOverlap → Nat → Bool) (g : StringGraph) (v : Vertex)
    (simpleCutoff : Nat) (p_error : Dbl) (h : g.neighbours v = []) :
    correctVertex (specEnv f m) (specOps m isConflicted) g v simpleCutoff p_error = some v.seq ∧
    trieCorrect (specEnv f m) v.seq p_error (makeExtendedSeqTries m g v p_error).1
      (makeExtendedSeqTries m g v p_error).2 = some v.seq ∧
    (makeExtendedMultiOverlap g v).calculateConsensusFromPartition m p_error = v.seq := by
  have htrie : trieCorrect (specEnv f m) v.seq p_error (makeExtendedSeqTries m g v p_error).1
      (makeExtendedSeqTries m g v p_error).2 = some v.seq := by
    rw [makeExtendedSeqTries_no_neighbours m g v p_error h]
    exact trieCorrect_empty_tries f m v.seq p_error
  have hcons := calculateConsensus_no_neighbours m g v p_error h
  refine ⟨?_, htrie, hcons⟩
  simp only [correctVertex, specOps]
  split
  · exact htrie
  · rw [hcons]

/-- An instance of `correctVertex_no_neighbours`: the read 0 of `egGraph`, with
a conflict test that always takes the trie branch. -/
theorem correctVertex_no_neighbours_witness :
    correctVertex (specEnv tableOps egModel) (specOps egModel (fun _ _ => true)) egGraph
      ⟨0, "ACGT".toList⟩ 2 egErrorRate = some "ACGT".toList ∧
    trieCorrect (specEnv tableOps egModel) "ACGT".toList egErrorRate
      (makeExtendedSeqTries egModel egGraph ⟨0, "ACGT".toList⟩ egErrorRate).1
      (makeExtendedSeqTries egModel egGraph ⟨0, "ACGT".toList⟩ egErrorRate).2
        = some "ACGT".toList ∧
    (makeExtendedMultiOverlap egGraph ⟨0, "ACGT".toList⟩).calculateConsensusFromPartition
      egModel egErrorRate = "ACGT".toList :=
  correctVertex_no_neighbours tableOps egModel (fun _ _ => true) egGraph ⟨0, "ACGT".toList⟩ 2
    egErrorRate (by decide)

end ErrorCorrect
